import Mathlib

/-!
Verification model of the WinOLS Damos (A2L) translator (`src/main.py`).

The program rewrites double-quoted fragments of a line-oriented text file,
caching translations in a JSON file and retrying a flaky external translation
service with exponential backoff.  This file gives a shallow embedding of the
relevant functions and proves the specification's testable properties about
them.

Modelling conventions:
* Python strings are `List Char` (`Str` below); byte strings are `List Nat`.
* The external translation capability is an oracle: for single calls a
  function `Nat → Option Str` giving the outcome of each successive attempt
  (`none` = exception), and at line/pipeline level a pure `Str → Str`
  (justified because every claim at that level either quantifies over the
  service or never invokes it).
* Wall-clock periodic cache saving is abstracted by an oracle
  `timer : Nat → Bool` (whether the 5-second interval has elapsed after a
  given line); `time.sleep` durations are rationals (0.75 · 2^i is exact in
  binary floating point, so `ℚ` is faithful).
* `KeyboardInterrupt` is modelled as an optional line index at which the
  interruption is observed (the spec fixes interruption granularity to
  "between lines or during a sleep", i.e. before the current line is written).
* The cache file is modelled by its textual content; `json.dump`/`json.load`
  are embedded as an escaping serializer and a recursive-descent JSON reader.
-/

namespace A2L

/-- Python `str` modelled as a list of unicode scalars. -/
abbrev Str := List Char

/-- The in-memory cache: a `dict` as an insertion-ordered association list
with unique keys (`cache[inner] = out` appends on miss). -/
abbrev Dict := List (Str × Str)

/-- `RETRY_LIMIT = 5` (src/main.py line 35). -/
def RETRY_LIMIT : Nat := 5

/-- `BASE_BACKOFF = 0.75` seconds (src/main.py line 36). -/
def BASE_BACKOFF : ℚ := 3 / 4

/-- Python `str.strip()` whitespace test for one character (`inner.strip()`
is empty iff every character satisfies this). -/
def pyIsSpace (c : Char) : Bool :=
  decide ((9 ≤ c.toNat ∧ c.toNat ≤ 13) ∨ c.toNat = 32 ∨
    (28 ≤ c.toNat ∧ c.toNat ≤ 31) ∨ c.toNat = 0x85 ∨ c.toNat = 0xa0 ∨
    c.toNat = 0x1680 ∨ (0x2000 ≤ c.toNat ∧ c.toNat ≤ 0x200a) ∨
    c.toNat = 0x2028 ∨ c.toNat = 0x2029 ∨ c.toNat = 0x202f ∨
    c.toNat = 0x205f ∨ c.toNat = 0x3000)

/-- One left-to-right pass of the matcher `QUOTE_RE = re.compile(r'"(.*?)"')`
(src/main.py line 33), as used by `re.sub`: `acc` is the reversed literal text
scanned since the last match; `mode = some (pre, buf)` means a quote was
opened after literal text `pre` (reversed) and `buf` (reversed) has been
consumed by the lazy `.*?`.  A fragment closes at the nearest following quote;
`.` does not match a newline, so an opening quote followed by a newline before
any closing quote fails to match and stays literal (the engine then resumes
at the next candidate position, and no quote can hide inside `buf`).
Returns the matched `(pre, fragment)` pairs in order plus the literal tail. -/
def scanSM : Str → Str → Option (Str × Str) → List (Str × Str) × Str
  | [], acc, none => ([], acc.reverse)
  | [], _, some (pre, buf) => ([], pre.reverse ++ '"' :: buf.reverse)
  | c :: rest, acc, none =>
    if c = '"' then scanSM rest acc (some (acc, []))
    else scanSM rest (c :: acc) none
  | c :: rest, acc, some (pre, buf) =>
    if c = '"' then
      let r := scanSM rest [] none
      ((pre.reverse, buf.reverse) :: r.1, r.2)
    else if c = '\n' then
      scanSM rest ('\n' :: (buf ++ '"' :: pre)) none
    else scanSM rest acc (some (pre, c :: buf))

/-- All matches of `QUOTE_RE` in a line: `(pre, frag)` pairs plus tail. -/
def scanFrags (cs : Str) : List (Str × Str) × Str := scanSM cs [] none

/-- Reassemble a line from `(pre, frag)` pairs and the tail: this is what
`QUOTE_RE.sub` produces when each match is replaced by `f"\"{out}\""`. -/
def renderFrags : List (Str × Str) → Str → Str
  | [], tail => tail
  | (pre, f) :: ps, tail => pre ++ '"' :: (f ++ '"' :: renderFrags ps tail)

/-- Python `inner in cache` / `cache[inner]` on the dict, first match. -/
def dlookup : Dict → Str → Option Str
  | [], _ => none
  | (k, v) :: rest, key => if k = key then some v else dlookup rest key

/-- The mutable state threaded through `_repl` (src/main.py lines 109-133):
the cache, the `changed` flag, and the number of calls made to the external
translation capability. -/
structure FragState where
  cache : Dict
  changed : Bool
  calls : Nat
  deriving DecidableEq, Repr

/-- Core of `_repl` (src/main.py lines 111-133) applied to the fragment text
`inner` between the quotes; returns the replacement text (re-wrapped in
quotes by `renderFrags`).  `svc inner` is the result of
`translate_text_frag(inner, dest, translator)`. -/
def replOne (svc : Str → Str) (inner : Str) (st : FragState) : Str × FragState :=
  if inner.all pyIsSpace then (inner, st)
  else
    match dlookup st.cache inner with
    | some out => (out, ⟨st.cache, st.changed || decide (¬out = inner), st.calls⟩)
    | none =>
      let out := svc inner
      (out, ⟨st.cache ++ [(inner, out)], st.changed || decide (¬out = inner), st.calls + 1⟩)

/-- `re.sub` applies `_repl` to the matches left to right; the literal `pre`
segments are untouched. -/
def mapFrags (svc : Str → Str) : List (Str × Str) → FragState → List (Str × Str) × FragState
  | [], st => ([], st)
  | (pre, f) :: ps, st =>
    let r := replOne svc f st
    let rest := mapFrags svc ps r.2
    ((pre, r.1) :: rest.1, rest.2)

/-- Result of `translate_line` (src/main.py lines 102-139) plus the effects:
final cache and number of external calls. -/
structure LineResult where
  line : Str
  changed : Bool
  cache : Dict
  calls : Nat
  deriving DecidableEq, Repr

/-- `translate_line(line, dest, translator, cache, ...)`: lines with no quote
character short-circuit; otherwise every `QUOTE_RE` match is rewritten. -/
def translate_line (svc : Str → Str) (cache : Dict) (line : Str) : LineResult :=
  if '"' ∈ line then
    let sf := scanFrags line
    let mf := mapFrags svc sf.1 ⟨cache, false, 0⟩
    ⟨renderFrags mf.1 sf.2, mf.2.changed, mf.2.cache, mf.2.calls⟩
  else ⟨line, false, cache, 0⟩

/-- Observable outcome of one `translate_text_frag` call: the returned text,
the `time.sleep` durations in order, the number of per-attempt `[warn]`
retry lines, and whether the final giving-up warning was emitted. -/
structure FragCall where
  result : Str
  sleeps : List ℚ
  warnRetries : Nat
  gaveUp : Bool
  deriving DecidableEq, Repr

/-- The retry loop of `translate_text_frag` (src/main.py lines 86-99):
`attempt` is the current attempt index, the last argument the number of
attempts left out of `RETRY_LIMIT`.  On failure it sleeps
`BASE_BACKOFF * 2 ** attempt` and retries; on exhaustion it warns once more
and returns the original text. -/
def fragLoop (oracle : Nat → Option Str) (text : Str) (attempt : Nat) : Nat → FragCall
  | 0 => ⟨text, [], 0, true⟩
  | remaining + 1 =>
    match oracle attempt with
    | some t => ⟨t, [], 0, false⟩
    | none =>
      let k := fragLoop oracle text (attempt + 1) remaining
      ⟨k.result, BASE_BACKOFF * 2 ^ attempt :: k.sleeps, k.warnRetries + 1, k.gaveUp⟩

/-- `translate_text_frag(text, dest_code, translator)` with the external
service's behaviour given by `oracle` (attempt index ↦ outcome). -/
def translate_text_frag (oracle : Nat → Option Str) (text : Str) : FragCall :=
  fragLoop oracle text 0 RETRY_LIMIT

/-- Python text-mode line iteration: split after every newline, keeping it;
a last chunk without a trailing newline is still one line. `acc` is the
reversed current chunk. -/
def splitSM : Str → Str → List Str
  | [], acc => if acc = [] then [] else [acc.reverse]
  | c :: rest, acc =>
    if c = '\n' then (acc.reverse ++ ['\n']) :: splitSM rest []
    else splitSM rest (c :: acc)

/-- The lines of a file's text, as `for line in fin` yields them. -/
def splitLines (cs : Str) : List Str := splitSM cs []

/-- `line.rstrip("\n")` (src/main.py line 204). -/
def rstripNL (l : Str) : Str := (l.reverse.dropWhile (fun c => c = '\n')).reverse

/-- Effects of processing one raw input line in the main loop
(src/main.py lines 199-215): the text written to the output file, the cache
afterwards, external calls made, and whether the line counted as changed. -/
structure StepOut where
  out : Str
  cache : Dict
  calls : Nat
  changed : Bool
  deriving DecidableEq, Repr

/-- One iteration of the main loop body: a line containing a quote character
is rstripped, translated and written back with a trailing newline; any other
line is written out verbatim. -/
def processRaw (svc : Str → Str) (cache : Dict) (l : Str) : StepOut :=
  if '"' ∈ l then
    let tl := translate_line svc cache (rstripNL l)
    ⟨tl.line ++ ['\n'], tl.cache, tl.calls, tl.changed⟩
  else ⟨l, cache, 0, false⟩

/-- Output text, final cache and total external calls of the main loop run
over a list of raw lines (specification fold used by the lemmas). -/
structure FoldOut where
  out : Str
  cache : Dict
  calls : Nat
  deriving DecidableEq, Repr

/-- Pure specification fold of the main loop over the input lines. -/
def lineFold (svc : Str → Str) : Dict → List Str → FoldOut
  | cache, [] => ⟨[], cache, 0⟩
  | cache, l :: ls =>
    let pr := processRaw svc cache l
    let r := lineFold svc pr.cache ls
    ⟨pr.out ++ r.out, r.cache, pr.calls + r.calls⟩

/-- How the run ended: normal completion, a handled `sys.exit(code)`, or an
unhandled crash (never produced by the modelled pipeline). -/
inductive Term where
  | normal
  | handledExit (code : Nat)
  | crash
  deriving DecidableEq, Repr

/-- Accumulators of the main loop (src/main.py lines 185-223). -/
structure LoopSt where
  out : Str
  cache : Dict
  calls : Nat
  totalLines : Nat
  changedLines : Nat
  periodicSaves : Nat
  deriving DecidableEq, Repr

/-- Full observable result of a run of `main`'s processing section:
everything in `LoopSt` plus how many times the `KeyboardInterrupt` handler
saved the cache, whether the unconditional final save ran, whether the
partial-output path was reported, and the termination status. -/
structure RunResult where
  out : Str
  cache : Dict
  calls : Nat
  totalLines : Nat
  changedLines : Nat
  periodicSaves : Nat
  handlerSaves : Nat
  finalSave : Bool
  reportedPartial : Bool
  term : Term
  deriving DecidableEq, Repr

/-- The main loop (src/main.py lines 195-232).  `intr = some i` means the
operator interruption is observed while line `i` (0-based) is being
processed, i.e. after lines `0..i-1` were fully written; the
`except KeyboardInterrupt` handler then saves the cache once, reports the
partial output path and exits with status 1.  `timer idx` tells whether the
periodic 5-second save interval had elapsed after line `idx`.  Normal
end-of-input performs the final unconditional save. -/
def runLoop (svc : Str → Str) (timer : Nat → Bool) (intr : Option Nat) :
    Nat → LoopSt → List Str → RunResult
  | _, st, [] =>
    ⟨st.out, st.cache, st.calls, st.totalLines, st.changedLines, st.periodicSaves,
      0, true, false, Term.normal⟩
  | idx, st, l :: ls =>
    if intr = some idx then
      ⟨st.out, st.cache, st.calls, st.totalLines, st.changedLines, st.periodicSaves,
        1, false, true, Term.handledExit 1⟩
    else
      let pr := processRaw svc st.cache l
      runLoop svc timer intr (idx + 1)
        ⟨st.out ++ pr.out, pr.cache, st.calls + pr.calls, st.totalLines + 1,
          st.changedLines + (if pr.changed then 1 else 0),
          st.periodicSaves + (if timer idx then 1 else 0)⟩ ls

/-- The processing pipeline of `main` on the decoded input text. -/
def runPipeline (svc : Str → Str) (timer : Nat → Bool) (intr : Option Nat)
    (cache : Dict) (input : Str) : RunResult :=
  runLoop svc timer intr 0 ⟨[], cache, 0, 0, 0, 0⟩ (splitLines input)

/-- The lists `splitLines` can produce: every element is a newline-terminated
chunk with no interior newline, except that the last may lack the newline
(and is then nonempty). -/
inductive LinesOf : List Str → Prop where
  | nil : LinesOf []
  | single (b : Str) : '\n' ∉ b → b ≠ [] → LinesOf [b]
  | cons (b : Str) (rest : List Str) : '\n' ∉ b → LinesOf rest →
      LinesOf ((b ++ ['\n']) :: rest)

/-- The warm-cache premise: the cache holds every non-inert fragment of every
line of the input. -/
def warmCache (cache : Dict) (pieces : List Str) : Prop :=
  ∀ l ∈ pieces, ∀ pf ∈ (scanFrags (rstripNL l)).1,
    pf.2.all pyIsSpace = false → (dlookup cache pf.2).isSome = true

/-- All cache values are newline-free. -/
def nlFreeDict (d : Dict) : Prop := ∀ kv ∈ d, '\n' ∉ kv.2

/-! ### JSON model (`json.dump(cache, f, ensure_ascii=False, indent=2)` /
`json.load`) -/

/-- A parsed JSON value.  Numbers keep their lexeme (the cache never stores
numbers, so their numeric value is irrelevant); `jobj` members are in
`dict` form (last duplicate wins, first position kept). -/
inductive JVal where
  | jnull
  | jbool (b : Bool)
  | jnum (lit : Str)
  | jstr (s : Str)
  | jarr (elems : List JVal)
  | jobj (members : List (Str × JVal))

/-- Hex digit value, accepting both cases (as `json` does in `\uXXXX`). -/
def hexDigitVal (c : Char) : Option Nat :=
  if 48 ≤ c.toNat ∧ c.toNat ≤ 57 then some (c.toNat - 48)
  else if 97 ≤ c.toNat ∧ c.toNat ≤ 102 then some (c.toNat - 87)
  else if 65 ≤ c.toNat ∧ c.toNat ≤ 70 then some (c.toNat - 55)
  else none

/-- Four hex digits from the front of the input. -/
def hex4 : Str → Option (Nat × Str)
  | a :: b :: c :: d :: rest =>
    match hexDigitVal a, hexDigitVal b, hexDigitVal c, hexDigitVal d with
    | some x, some y, some z, some w => some (((x * 16 + y) * 16 + z) * 16 + w, rest)
    | _, _, _, _ => none
  | _ => none

/-- Decode one string escape after the backslash: `e` is the escape letter,
`cs` the rest.  `\uXXXX` combines a surrogate pair when one follows.
(A lone surrogate, which Python would keep in the `str`, has no `Char`
representation; `Char.ofNat` degrades it — no theorem below touches that
corner.) -/
def decodeEsc (e : Char) (cs : Str) : Option (Char × Str) :=
  if e = '"' then some ('"', cs)
  else if e = '\\' then some ('\\', cs)
  else if e = '/' then some ('/', cs)
  else if e = 'b' then some ('\x08', cs)
  else if e = 'f' then some ('\x0c', cs)
  else if e = 'n' then some ('\n', cs)
  else if e = 'r' then some ('\x0d', cs)
  else if e = 't' then some ('\x09', cs)
  else if e = 'u' then
    match hex4 cs with
    | none => none
    | some (n, rest) =>
      if 0xd800 ≤ n ∧ n ≤ 0xdbff then
        match rest with
        | '\\' :: 'u' :: rest2 =>
          match hex4 rest2 with
          | none => some (Char.ofNat n, rest)
          | some (m, rest3) =>
            if 0xdc00 ≤ m ∧ m ≤ 0xdfff then
              some (Char.ofNat (0x10000 + (n - 0xd800) * 0x400 + (m - 0xdc00)), rest3)
            else some (Char.ofNat n, rest)
        | _ => some (Char.ofNat n, rest)
      else some (Char.ofNat n, rest)
  else none

/-- Body of a JSON string literal after the opening quote (strict mode: raw
control characters are rejected).  Fuelled so that it evaluates by `rfl`;
each step consumes at least one input character, so fuel ≥ input length
never runs out. -/
def parseStrAux : Nat → Str → Option (Str × Str)
  | _, [] => none
  | 0, _ :: _ => none
  | fuel + 1, c :: cs =>
    if c = '"' then some ([], cs)
    else if c = '\\' then
      match cs with
      | [] => none
      | e :: cs2 =>
        match decodeEsc e cs2 with
        | none => none
        | some (ch, rest) =>
          match parseStrAux fuel rest with
          | none => none
          | some (s, rest2) => some (ch :: s, rest2)
    else if c.toNat < 32 then none
    else
      match parseStrAux fuel cs with
      | none => none
      | some (s, rest) => some (c :: s, rest)

/-- JSON string-literal body (input begins after the opening quote). -/
def parseStr (cs : Str) : Option (Str × Str) := parseStrAux cs.length cs

/-- The whitespace `json` skips between tokens. -/
def skipWs (cs : Str) : Str :=
  cs.dropWhile (fun c => decide (c.toNat = 32 ∨ c.toNat = 9 ∨ c.toNat = 10 ∨ c.toNat = 13))

/-- `afterLit pat cs` strips the literal `pat` from the front of `cs`. -/
def afterLit : Str → Str → Option Str
  | [], cs => some cs
  | _ :: _, [] => none
  | p :: ps, c :: cs => if c = p then afterLit ps cs else none

/-- JSON number integer part: `0` or a nonzero digit run (no leading zeros). -/
def intPart : Str → Option (Str × Str)
  | '0' :: r => some (['0'], r)
  | cs =>
    let p := cs.span (fun c => c.isDigit)
    if p.1 = [] then none else some p

/-- JSON number fraction part (absent, or `.` followed by digits). -/
def fracPart : Str → Option (Str × Str)
  | '.' :: r =>
    let p := r.span (fun c => c.isDigit)
    if p.1 = [] then none else some ('.' :: p.1, p.2)
  | cs => some ([], cs)

/-- JSON number exponent part (absent, or `e`/`E`, optional sign, digits). -/
def expPart : Str → Option (Str × Str)
  | [] => some ([], [])
  | c :: r =>
    if c = 'e' ∨ c = 'E' then
      let sg : Str × Str :=
        match r with
        | '+' :: r2 => (['+'], r2)
        | '-' :: r2 => (['-'], r2)
        | _ => ([], r)
      let p := sg.2.span (fun c => c.isDigit)
      if p.1 = [] then none else some (c :: (sg.1 ++ p.1), p.2)
    else some ([], c :: r)

/-- A JSON number lexeme from the front of the input. -/
def parseNum (cs : Str) : Option (Str × Str) :=
  let sg : Str × Str :=
    match cs with
    | '-' :: r => (['-'], r)
    | _ => ([], cs)
  match intPart sg.2 with
  | none => none
  | some ip =>
    match fracPart ip.2 with
    | none => none
    | some fp =>
      match expPart fp.2 with
      | none => none
      | some ep => some (sg.1 ++ ip.1 ++ fp.1 ++ ep.1, ep.2)

/-- Update one key in a member list the way `dict` assignment does: existing
key keeps its position, new key is appended. -/
def setKey : List (Str × JVal) → Str → JVal → List (Str × JVal)
  | [], k, v => [(k, v)]
  | (k2, v2) :: rest, k, v =>
    if k2 = k then (k2, v) :: rest else (k2, v2) :: setKey rest k v

/-- Build the Python `dict` from parsed object members (last duplicate wins). -/
def buildDict (kvs : List (Str × JVal)) : List (Str × JVal) :=
  kvs.foldl (fun acc kv => setKey acc kv.1 kv.2) []

mutual

/-- Recursive-descent JSON value reader (the scanner behind `json.load`,
including the default acceptance of `NaN`/`Infinity`/`-Infinity`).  Fuel
decreases on each nested value and each object/array element, each of which
consumes at least one character, so fuel ≥ input length suffices. -/
def parseVal : Nat → Str → Option (JVal × Str)
  | 0, _ => none
  | fuel + 1, cs =>
    match cs with
    | '\x7b' :: rest =>
      (match skipWs rest with
       | '\x7d' :: r => some (JVal.jobj [], r)
       | cs1 => (parseMembers fuel cs1).map (fun p => (JVal.jobj (buildDict p.1), p.2)))
    | '[' :: rest =>
      (match skipWs rest with
       | ']' :: r => some (JVal.jarr [], r)
       | cs1 => (parseElems fuel cs1).map (fun p => (JVal.jarr p.1, p.2)))
    | '"' :: rest => (parseStr rest).map (fun p => (JVal.jstr p.1, p.2))
    | _ =>
      match afterLit ['t', 'r', 'u', 'e'] cs with
      | some r => some (JVal.jbool true, r)
      | none =>
        match afterLit ['f', 'a', 'l', 's', 'e'] cs with
        | some r => some (JVal.jbool false, r)
        | none =>
          match afterLit ['n', 'u', 'l', 'l'] cs with
          | some r => some (JVal.jnull, r)
          | none =>
            match afterLit ['N', 'a', 'N'] cs with
            | some r => some (JVal.jnum ['N', 'a', 'N'], r)
            | none =>
              match afterLit ['I', 'n', 'f', 'i', 'n', 'i', 't', 'y'] cs with
              | some r => some (JVal.jnum ['I', 'n', 'f', 'i', 'n', 'i', 't', 'y'], r)
              | none =>
                match afterLit ['-', 'I', 'n', 'f', 'i', 'n', 'i', 't', 'y'] cs with
                | some r => some (JVal.jnum ['-', 'I', 'n', 'f', 'i', 'n', 'i', 't', 'y'], r)
                | none => (parseNum cs).map (fun p => (JVal.jnum p.1, p.2))

/-- Object members after the opening brace (nonempty case): quoted key,
colon, value, then `,` and more members or the closing brace. -/
def parseMembers : Nat → Str → Option (List (Str × JVal) × Str)
  | 0, _ => none
  | fuel + 1, cs =>
    match skipWs cs with
    | '"' :: r =>
      (match parseStr r with
       | none => none
       | some (k, r1) =>
         match skipWs r1 with
         | ':' :: r2 =>
           (match parseVal fuel (skipWs r2) with
            | none => none
            | some (v, r3) =>
              match skipWs r3 with
              | ',' :: r4 =>
                (match parseMembers fuel r4 with
                 | none => none
                 | some (kvs, r5) => some ((k, v) :: kvs, r5))
              | '\x7d' :: r4 => some ([(k, v)], r4)
              | _ => none)
         | _ => none)
    | _ => none

/-- Array elements after the opening bracket (nonempty case). -/
def parseElems : Nat → Str → Option (List JVal × Str)
  | 0, _ => none
  | fuel + 1, cs =>
    match parseVal fuel (skipWs cs) with
    | none => none
    | some (v, r1) =>
      match skipWs r1 with
      | ',' :: r2 =>
        (match parseElems fuel r2 with
         | none => none
         | some (vs, r3) => some (v :: vs, r3))
      | ']' :: r2 => some ([v], r2)
      | _ => none

end

/-- `json.loads`: skip leading whitespace, read one value, require only
whitespace to remain. -/
def parseJson (cs : Str) : Option JVal :=
  match parseVal (cs.length + 1) (skipWs cs) with
  | none => none
  | some p =>
    match skipWs p.2 with
    | [] => some p.1
    | _ :: _ => none

/-- Lower-case hex digit, as `json`'s `\u00xx` escapes use. -/
def hexDigitChar (n : Nat) : Char :=
  if n < 10 then Char.ofNat (48 + n) else Char.ofNat (87 + n)

/-- `json.dump` escaping with `ensure_ascii=False`: only the quote, the
backslash and control characters are escaped; everything from `0x20` up is
written literally. -/
def escChar (c : Char) : Str :=
  if c = '"' then ['\\', '"']
  else if c = '\\' then ['\\', '\\']
  else if c = '\n' then ['\\', 'n']
  else if c = '\x09' then ['\\', 't']
  else if c = '\x0d' then ['\\', 'r']
  else if c = '\x08' then ['\\', 'b']
  else if c = '\x0c' then ['\\', 'f']
  else if c.toNat < 32 then
    ['\\', 'u', '0', '0', hexDigitChar (c.toNat / 16), hexDigitChar (c.toNat % 16)]
  else [c]

/-- Escaped body of a serialized string. -/
def encBody (s : Str) : Str := (s.map escChar).flatten

/-- A serialized JSON string literal. -/
def encStr (s : Str) : Str := '"' :: encBody s ++ ['"']

/-- One serialized cache entry, with `indent=2`'s `": "` key separator. -/
def encMember (kv : Str × Str) : Str := encStr kv.1 ++ ':' :: ' ' :: encStr kv.2

/-- Serialized members separated by `",\n  "` (`indent=2`). -/
def encMembers : Dict → Str
  | [] => []
  | [kv] => encMember kv
  | kv :: rest => encMember kv ++ ',' :: '\n' :: ' ' :: ' ' :: encMembers rest

/-- `json.dump(cache, f, ensure_ascii=False, indent=2)`: the exact text
written to the cache file. -/
def dumpCache : Dict → Str
  | [] => ['\x7b', '\x7d']
  | kv :: rest =>
    '\x7b' :: '\n' :: ' ' :: ' ' :: encMembers (kv :: rest) ++ '\n' :: ['\x7d']

/-- `save_cache` (src/main.py lines 79-83) writes `dumpCache` via a
temporary file followed by an atomic rename; the durable content of the
cache file after a flush is returned. -/
def save_cache (cache : Dict) : Str := dumpCache cache

/-- What the cache location can hold when `load_cache` runs. -/
inductive FileContent where
  | absent
  | unreadable
  | stored (text : Str)

/-- `load_cache` (src/main.py lines 68-76): a missing or unreadable file and
a `json.load` failure all fall back to `{}`; a successful `json.load` result
is returned as-is (whatever its shape).  No write or delete happens. -/
def load_cache : FileContent → JVal
  | FileContent.absent => JVal.jobj []
  | FileContent.unreadable => JVal.jobj []
  | FileContent.stored text =>
    match parseJson text with
    | some v => v
    | none => JVal.jobj []

/-- Members of a well-typed (string-to-string) JSON object, as a `Dict`. -/
def jMembersToDict : List (Str × JVal) → Option Dict
  | [] => some []
  | (k, JVal.jstr s) :: rest =>
    (match jMembersToDict rest with
     | some d => some ((k, s) :: d)
     | none => none)
  | _ :: _ => none

/-- A loaded JSON value as the `Dict[str, str]` the program expects. -/
def jToDict : JVal → Option Dict
  | JVal.jobj kvs => jMembersToDict kvs
  | _ => none

/-- A `Dict` as JSON object members. -/
def jsMap (d : Dict) : List (Str × JVal) := d.map (fun kv => (kv.1, JVal.jstr kv.2))

/-- One byte decoded with the fixed `latin1` codec (src/main.py line 196):
defined on every byte value, mapping byte `b` to scalar `b`. -/
def latin1DecodeByte (b : Nat) : Option Char :=
  if b < 256 then some (Char.ofNat b) else none

/-- Decoding a byte sequence under `errors="ignore"`: any undecodable byte
would be dropped (for `latin1` none exists). -/
def latin1DecodeIgnore (bs : List Nat) : Str := bs.filterMap latin1DecodeByte

/-! ### Lemmas about the fragment scanner -/

/-- Reassembling whatever `scanSM` produced recovers the input (together with
the pending literal text described by `acc`/`mode`). -/
theorem render_scanSM (cs : Str) : ∀ (acc : Str) (mode : Option (Str × Str)),
    renderFrags (scanSM cs acc mode).1 (scanSM cs acc mode).2 =
      (match mode with
       | none => acc.reverse ++ cs
       | some (pre, buf) => pre.reverse ++ '"' :: (buf.reverse ++ cs)) := by
  induction cs with
  | nil =>
    intro acc mode
    rcases mode with _ | ⟨pre, buf⟩ <;> simp [scanSM, renderFrags]
  | cons c rest ih =>
    intro acc mode
    rcases mode with _ | ⟨pre, buf⟩
    · by_cases h : c = '"'
      · subst h
        simpa [scanSM] using ih acc (some (acc, []))
      · simpa [scanSM, h] using ih (c :: acc) none
    · by_cases h : c = '"'
      · subst h
        have := ih [] none
        simp [scanSM, renderFrags, this]
      · by_cases h2 : c = '\n'
        · subst h2
          have := ih ('\n' :: (buf ++ '"' :: pre)) none
          simp [scanSM, h, this]
        · simpa [scanSM, h, h2] using ih acc (some (pre, c :: buf))

/-- The scan/render identity: a line is exactly its literal pieces with the
fragments re-wrapped in their quote delimiters. -/
theorem render_scan (cs : Str) :
    renderFrags (scanFrags cs).1 (scanFrags cs).2 = cs := by
  simpa [scanFrags] using render_scanSM cs [] none

theorem scanSM_no_quote (cs : Str) : ∀ acc : Str, '"' ∉ cs →
    scanSM cs acc none = ([], acc.reverse ++ cs) := by
  induction cs with
  | nil => intro acc _; simp [scanSM]
  | cons c rest ih =>
    intro acc h
    have hc : ¬c = '"' := fun hc => h (hc ▸ List.mem_cons_self c rest)
    have hr : '"' ∉ rest := fun hr => h (List.mem_cons_of_mem c hr)
    simp [scanSM, hc, ih (c :: acc) hr]

/-- A line with no quote character yields no fragment. -/
theorem scan_no_quote (cs : Str) (h : '"' ∉ cs) : scanFrags cs = ([], cs) := by
  simpa [scanFrags] using scanSM_no_quote cs [] h

/-- `re.sub` leaves the literal pieces alone: the pre-fragment texts of the
output coincide with those of the input. -/
theorem mapFrags_fst (svc : Str → Str) : ∀ (ps : List (Str × Str)) (st : FragState),
    (mapFrags svc ps st).1.map Prod.fst = ps.map Prod.fst := by
  intro ps
  induction ps with
  | nil => intro st; simp [mapFrags]
  | cons p ps ih => intro st; simp [mapFrags, ih]

/-! ### Lemmas about the retry loop -/

/-- If the oracle fails on the first `k` attempts from `attempt` on and then
succeeds, and `k` attempts are still available, the loop returns the success
after `k` backoff sleeps. -/
theorem fragLoop_success (oracle : Nat → Option Str) (text t : Str) :
    ∀ (k attempt remaining : Nat), (∀ i, i < k → oracle (attempt + i) = none) →
      oracle (attempt + k) = some t → k < remaining →
      fragLoop oracle text attempt remaining =
        ⟨t, (List.range k).map (fun i => BASE_BACKOFF * 2 ^ (attempt + i)), k, false⟩ := by
  intro k
  induction k with
  | zero =>
    intro attempt remaining _ hs hlt
    obtain ⟨r, rfl⟩ : ∃ r, remaining = r + 1 := ⟨remaining - 1, by omega⟩
    simp only [Nat.add_zero] at hs
    simp [fragLoop, hs]
  | succ k ih =>
    intro attempt remaining h0 hs hlt
    obtain ⟨r, rfl⟩ : ∃ r, remaining = r + 1 := ⟨remaining - 1, by omega⟩
    have hfail : oracle attempt = none := by simpa using h0 0 (Nat.succ_pos k)
    have hrec := ih (attempt + 1) r
      (fun i hi => by
        have := h0 (i + 1) (by omega)
        simpa [Nat.add_assoc, Nat.add_comm 1 i] using this)
      (by
        have : attempt + 1 + k = attempt + (k + 1) := by omega
        rw [this]; exact hs)
      (by omega)
    simp [fragLoop, hfail, hrec, List.range_succ_eq_map, List.map_map]
    intro a _
    left
    omega

/-- If the oracle fails on every available attempt, the loop performs all the
sleeps and falls back to the original text after giving up. -/
theorem fragLoop_exhaust (oracle : Nat → Option Str) (text : Str) :
    ∀ (remaining attempt : Nat), (∀ i, i < remaining → oracle (attempt + i) = none) →
      fragLoop oracle text attempt remaining =
        ⟨text, (List.range remaining).map (fun i => BASE_BACKOFF * 2 ^ (attempt + i)),
          remaining, true⟩ := by
  intro remaining
  induction remaining with
  | zero => intro attempt _; simp [fragLoop]
  | succ r ih =>
    intro attempt h0
    have hfail : oracle attempt = none := by simpa using h0 0 (Nat.succ_pos r)
    have hrec := ih (attempt + 1)
      (fun i hi => by
        have := h0 (i + 1) (by omega)
        simpa [Nat.add_assoc, Nat.add_comm 1 i] using this)
    simp [fragLoop, hfail, hrec, List.range_succ_eq_map, List.map_map]
    intro a _
    left
    omega

/-! ### Lemmas about line splitting -/

theorem splitSM_append (l : Str) : ∀ (acc rest : Str), '\n' ∉ l →
    splitSM (l ++ '\n' :: rest) acc = ((acc.reverse ++ l) ++ ['\n']) :: splitSM rest [] := by
  induction l with
  | nil => intro acc rest _; simp [splitSM]
  | cons c l ih =>
    intro acc rest h
    have hc : ¬c = '\n' := fun hc => h (hc ▸ List.mem_cons_self c l)
    have hl : '\n' ∉ l := fun hl => h (List.mem_cons_of_mem c hl)
    simp [splitSM, hc, ih (c :: acc) rest hl]

theorem splitSM_no_nl (l : Str) : ∀ (acc : Str), '\n' ∉ l → acc.reverse ++ l ≠ [] →
    splitSM l acc = [acc.reverse ++ l] := by
  induction l with
  | nil => intro acc _ hne; simp [splitSM]; simpa using hne
  | cons c l ih =>
    intro acc h _
    have hc : ¬c = '\n' := fun hc => h (hc ▸ List.mem_cons_self c l)
    have hl : '\n' ∉ l := fun hl => h (List.mem_cons_of_mem c hl)
    rw [splitSM, if_neg hc, ih (c :: acc) hl (by simp)]
    simp

theorem splitSM_linesOf : ∀ (cs acc : Str), '\n' ∉ acc → LinesOf (splitSM cs acc) := by
  intro cs
  induction cs with
  | nil =>
    intro acc hacc
    by_cases h : acc = []
    · simp [splitSM, h]; exact LinesOf.nil
    · rw [splitSM, if_neg h]
      exact LinesOf.single acc.reverse (by simpa using hacc) (by simpa using h)
  | cons c rest ih =>
    intro acc hacc
    by_cases hc : c = '\n'
    · subst hc
      rw [splitSM, if_pos rfl]
      exact LinesOf.cons acc.reverse (splitSM rest []) (by simpa using hacc)
        (ih [] (by simp))
    · rw [splitSM, if_neg hc]
      exact ih (c :: acc) (by simp [hacc, Ne.symm hc, hc])

/-- Every file's text splits into well-shaped lines. -/
theorem splitLines_linesOf (cs : Str) : LinesOf (splitLines cs) :=
  splitSM_linesOf cs [] (by simp)

theorem rstripNL_append (b : Str) (h : '\n' ∉ b) : rstripNL (b ++ ['\n']) = b := by
  unfold rstripNL
  rw [List.reverse_append]
  simp only [List.reverse_cons, List.reverse_nil, List.nil_append, List.singleton_append,
    List.dropWhile_cons]
  simp only [decide_eq_true_eq, if_pos rfl]
  cases hb : b.reverse with
  | nil => simpa using congrArg List.reverse hb
  | cons x xs =>
    have hx : x ∈ b := by
      have : x ∈ b.reverse := by rw [hb]; exact List.mem_cons_self x xs
      simpa using this
    have hxe : ¬x = '\n' := fun he => h (he ▸ hx)
    rw [List.dropWhile_cons_of_neg (by simpa using hxe)]
    simpa using congrArg List.reverse hb.symm

theorem rstripNL_no_nl (b : Str) (h : '\n' ∉ b) : rstripNL b = b := by
  unfold rstripNL
  cases hb : b.reverse with
  | nil => simpa using congrArg List.reverse hb
  | cons x xs =>
    have hx : x ∈ b := by
      have : x ∈ b.reverse := by rw [hb]; exact List.mem_cons_self x xs
      simpa using this
    have hxe : ¬x = '\n' := fun he => h (he ▸ hx)
    rw [List.dropWhile_cons_of_neg (by simpa using hxe)]
    simpa using congrArg List.reverse hb.symm

/-! ### Newline-freeness through the line processor -/

theorem mem_renderFrags (c : Char) : ∀ (ps : List (Str × Str)) (tail : Str),
    c ∈ renderFrags ps tail ↔
      (∃ pf ∈ ps, c ∈ pf.1 ∨ c ∈ pf.2 ∨ c = '"') ∨ c ∈ tail := by
  intro ps
  induction ps with
  | nil => intro tail; simp [renderFrags]
  | cons p ps ih =>
    intro tail
    obtain ⟨pre, f⟩ := p
    simp [renderFrags, ih]
    aesop

theorem dlookup_mem : ∀ (d : Dict) (k v : Str), dlookup d k = some v → (k, v) ∈ d := by
  intro d
  induction d with
  | nil => intro k v h; simp [dlookup] at h
  | cons kv d ih =>
    intro k v h
    obtain ⟨k2, v2⟩ := kv
    by_cases he : k2 = k
    · subst he
      simp [dlookup] at h
      simp [h]
    · rw [dlookup, if_neg he] at h
      exact List.mem_cons_of_mem _ (ih k v h)

theorem dlookup_none_notMem : ∀ (d : Dict) (k : Str), dlookup d k = none →
    k ∉ d.map Prod.fst := by
  intro d
  induction d with
  | nil => intro k _; simp
  | cons kv d ih =>
    intro k h
    obtain ⟨k2, v2⟩ := kv
    by_cases he : k2 = k
    · subst he; simp [dlookup] at h
    · rw [dlookup, if_neg he] at h
      simpa [Ne.symm he] using ih k h

theorem dlookup_append_left : ∀ (d e : Dict) (k v : Str), dlookup d k = some v →
    dlookup (d ++ e) k = some v := by
  intro d e
  induction d with
  | nil => intro k v h; simp [dlookup] at h
  | cons kv d ih =>
    intro k v h
    obtain ⟨k2, v2⟩ := kv
    by_cases he : k2 = k
    · subst he
      simp [dlookup] at h ⊢
      exact h
    · rw [dlookup, if_neg he] at h
      rw [List.cons_append, dlookup, if_neg he]
      exact ih k v h

/-- Fragments and literal pieces of a newline-free line are newline-free. -/
theorem scan_comps_nl (line : Str) (h : '\n' ∉ line) :
    (∀ pf ∈ (scanFrags line).1, '\n' ∉ pf.1 ∧ '\n' ∉ pf.2) ∧ '\n' ∉ (scanFrags line).2 := by
  have hr := render_scan line
  constructor
  · intro pf hpf
    constructor
    · intro hc
      exact h (hr ▸ (mem_renderFrags '\n' (scanFrags line).1 (scanFrags line).2).mpr
        (Or.inl ⟨pf, hpf, Or.inl hc⟩))
    · intro hc
      exact h (hr ▸ (mem_renderFrags '\n' (scanFrags line).1 (scanFrags line).2).mpr
        (Or.inl ⟨pf, hpf, Or.inr (Or.inl hc)⟩))
  · intro hc
    exact h (hr ▸ (mem_renderFrags '\n' (scanFrags line).1 (scanFrags line).2).mpr
      (Or.inr hc))

/-- `mapFrags` keeps fragment replacements and cache values newline-free when
the incoming fragments, the cache and the service are newline-free. -/
theorem mapFrags_nlfree (svc : Str → Str) (hsvc : ∀ t, '\n' ∉ svc t) :
    ∀ (ps : List (Str × Str)) (st : FragState), (∀ pf ∈ ps, '\n' ∉ pf.2) →
      nlFreeDict st.cache →
      (∀ pf ∈ (mapFrags svc ps st).1, '\n' ∉ pf.2) ∧
        nlFreeDict (mapFrags svc ps st).2.cache := by
  intro ps
  induction ps with
  | nil => intro st _ hc; simpa [mapFrags] using hc
  | cons p ps ih =>
    intro st hps hc
    obtain ⟨pre, f⟩ := p
    have hf : '\n' ∉ f := by
      have := hps (pre, f) (List.mem_cons_self _ _)
      simpa using this
    have hps' : ∀ pf ∈ ps, '\n' ∉ pf.2 := fun pf hpf => hps pf (List.mem_cons_of_mem _ hpf)
    by_cases hin : f.all pyIsSpace
    · have hrepl : replOne svc f st = (f, st) := by simp [replOne, hin]
      have hrec := ih st hps' hc
      simp only [mapFrags, hrepl]
      refine ⟨?_, hrec.2⟩
      intro pf hpf
      rcases List.mem_cons.mp hpf with he | hm
      · subst he; simpa using hf
      · exact hrec.1 pf hm
    · cases hlk : dlookup st.cache f with
      | some v =>
        have hv : '\n' ∉ v := hc (f, v) (dlookup_mem st.cache f v hlk)
        have hrepl : replOne svc f st =
            (v, ⟨st.cache, st.changed || decide (¬v = f), st.calls⟩) := by
          simp [replOne, hin, hlk]
        have hrec := ih ⟨st.cache, st.changed || decide (¬v = f), st.calls⟩ hps' hc
        simp only [mapFrags, hrepl]
        refine ⟨?_, hrec.2⟩
        intro pf hpf
        rcases List.mem_cons.mp hpf with he | hm
        · subst he; simpa using hv
        · exact hrec.1 pf hm
      | none =>
        have hv : '\n' ∉ svc f := hsvc f
        have hc2 : nlFreeDict (st.cache ++ [(f, svc f)]) := by
          intro kv hkv
          rcases List.mem_append.mp hkv with hm | hm
          · exact hc kv hm
          · simp at hm
            subst hm
            exact hv
        have hrepl : replOne svc f st =
            (svc f, ⟨st.cache ++ [(f, svc f)], st.changed || decide (¬svc f = f),
              st.calls + 1⟩) := by
          simp [replOne, hin, hlk]
        have hrec := ih ⟨st.cache ++ [(f, svc f)], st.changed || decide (¬svc f = f),
          st.calls + 1⟩ hps' hc2
        simp only [mapFrags, hrepl]
        refine ⟨?_, hrec.2⟩
        intro pf hpf
        rcases List.mem_cons.mp hpf with he | hm
        · subst he; simpa using hv
        · exact hrec.1 pf hm

/-- `translate_line` preserves newline-freeness of the line and of the cache
values when the service only returns newline-free text. -/
theorem translate_line_nlfree (svc : Str → Str) (hsvc : ∀ t, '\n' ∉ svc t)
    (cache : Dict) (line : Str) (hl : '\n' ∉ line) (hc : nlFreeDict cache) :
    '\n' ∉ (translate_line svc cache line).line ∧
      nlFreeDict (translate_line svc cache line).cache := by
  by_cases hq : '"' ∈ line
  · have hcomps := scan_comps_nl line hl
    have hmf := mapFrags_nlfree svc hsvc (scanFrags line).1 ⟨cache, false, 0⟩
      (fun pf hpf => (hcomps.1 pf hpf).2) hc
    constructor
    · intro hmem
      simp only [translate_line, if_pos hq] at hmem
      rcases (mem_renderFrags '\n' _ _).mp hmem with ⟨pf, hpf, hin⟩ | htail
      · rcases hin with hin | hin | hin
        · have : pf.1 ∈ (mapFrags svc (scanFrags line).1 ⟨cache, false, 0⟩).1.map Prod.fst :=
            List.mem_map.mpr ⟨pf, hpf, rfl⟩
          rw [mapFrags_fst] at this
          obtain ⟨pf0, hpf0, hfst⟩ := List.mem_map.mp this
          exact (hcomps.1 pf0 hpf0).1 (hfst ▸ hin)
        · exact hmf.1 pf hpf hin
        · exact absurd hin (by decide)
      · exact hcomps.2 htail
    · simp only [translate_line, if_pos hq]
      exact hmf.2
  · simp only [translate_line, if_neg hq]
    exact ⟨hl, hc⟩

/-! ### Line counting through the pipeline -/

/-- With a newline-free service and cache, the loop writes exactly one output
line per input line (and keeps the cache newline-free). -/
theorem lineFold_count (svc : Str → Str) (hsvc : ∀ t, '\n' ∉ svc t) :
    ∀ (pieces : List Str), LinesOf pieces → ∀ (cache : Dict), nlFreeDict cache →
      (splitLines (lineFold svc cache pieces).out).length = pieces.length := by
  intro pieces hp
  induction hp with
  | nil => intro cache _; simp [lineFold, splitLines, splitSM]
  | single b hb hne =>
    intro cache hc
    by_cases hq : '"' ∈ b
    · have hstrip : rstripNL b = b := rstripNL_no_nl b hb
      have htl := translate_line_nlfree svc hsvc cache b hb hc
      simp only [lineFold, processRaw, if_pos hq, hstrip, List.append_nil]
      rw [show (translate_line svc cache b).line ++ ['\n'] =
        (translate_line svc cache b).line ++ '\n' :: [] from rfl]
      rw [splitLines, splitSM_append _ [] [] htl.1]
      simp [splitSM]
    · simp only [lineFold, processRaw, if_neg hq, List.append_nil]
      rw [splitLines, splitSM_no_nl b [] hb (by simpa using hne)]
      simp
  | cons b rest hb hrest ih =>
    intro cache hc
    have hqiff : '"' ∈ b ++ ['\n'] ↔ '"' ∈ b := by simp
    by_cases hq : '"' ∈ b
    · have hstrip : rstripNL (b ++ ['\n']) = b := rstripNL_append b hb
      have htl := translate_line_nlfree svc hsvc cache b hb hc
      simp only [lineFold, processRaw, if_pos (hqiff.mpr hq), hstrip]
      rw [List.append_assoc, List.singleton_append, splitLines, splitSM_append _ [] _ htl.1]
      simpa using ih (translate_line svc cache b).cache htl.2
    · simp only [lineFold, processRaw, if_neg (fun h => hq (hqiff.mp h))]
      rw [List.append_assoc, List.singleton_append, splitLines, splitSM_append _ [] _ hb]
      simpa using ih cache hc

/-! ### The main loop as a fold -/

/-- Without an interruption, `runLoop` is the pure fold on output, cache and
call count. -/
theorem runLoop_none (svc : Str → Str) (timer : Nat → Bool) :
    ∀ (pieces : List Str) (idx : Nat) (st : LoopSt),
      (runLoop svc timer none idx st pieces).out = st.out ++ (lineFold svc st.cache pieces).out ∧
      (runLoop svc timer none idx st pieces).cache = (lineFold svc st.cache pieces).cache ∧
      (runLoop svc timer none idx st pieces).calls = st.calls + (lineFold svc st.cache pieces).calls := by
  intro pieces
  induction pieces with
  | nil => intro idx st; simp [runLoop, lineFold]
  | cons l ls ih =>
    intro idx st
    have hni : ¬(none : Option Nat) = some idx := by simp
    rw [runLoop, if_neg hni]
    have := ih (idx + 1)
      ⟨st.out ++ (processRaw svc st.cache l).out, (processRaw svc st.cache l).cache,
        st.calls + (processRaw svc st.cache l).calls, st.totalLines + 1,
        st.changedLines + (if (processRaw svc st.cache l).changed then 1 else 0),
        st.periodicSaves + (if timer idx then 1 else 0)⟩
    simp only [lineFold]
    refine ⟨?_, ?_, ?_⟩
    · rw [this.1]; simp
    · rw [this.2.1]
    · rw [this.2.2]; simp [Nat.add_assoc]

/-- An interruption observed while line `idx + j` is being processed yields
the state of the run truncated to the first `j` lines, with the handler's
single cache save, the partial-output report and the handled exit. -/
theorem runLoop_intr (svc : Str → Str) (timer : Nat → Bool) :
    ∀ (j : Nat) (pieces : List Str) (idx : Nat) (st : LoopSt), j < pieces.length →
      runLoop svc timer (some (idx + j)) idx st pieces =
        { runLoop svc timer none idx st (pieces.take j) with
            handlerSaves := 1, finalSave := false, reportedPartial := true,
            term := Term.handledExit 1 } := by
  intro j
  induction j with
  | zero =>
    intro pieces idx st hlt
    cases pieces with
    | nil => simp at hlt
    | cons l ls =>
      rw [show idx + 0 = idx from rfl]
      rw [runLoop, if_pos rfl]
      simp [runLoop]
  | succ j ih =>
    intro pieces idx st hlt
    cases pieces with
    | nil => simp at hlt
    | cons l ls =>
      have hne : ¬(some (idx + (j + 1)) : Option Nat) = some idx := by
        simp only [Option.some.injEq]
        omega
      have hne2 : ¬(none : Option Nat) = some idx := by simp
      rw [List.take_succ_cons, runLoop, if_neg hne, runLoop, if_neg hne2]
      have : idx + (j + 1) = (idx + 1) + j := by omega
      rw [this]
      exact ih ls (idx + 1) _ (by simpa using hlt)

/-! ### Warm-cache runs -/

/-- Under a warm cache, `mapFrags` does not depend on the service, adds no
cache entry and makes no external call. -/
theorem mapFrags_warm (svc1 svc2 : Str → Str) :
    ∀ (ps : List (Str × Str)) (st : FragState),
      (∀ pf ∈ ps, pf.2.all pyIsSpace = false → (dlookup st.cache pf.2).isSome = true) →
      mapFrags svc1 ps st = mapFrags svc2 ps st ∧
        (mapFrags svc1 ps st).2.cache = st.cache ∧
        (mapFrags svc1 ps st).2.calls = st.calls := by
  intro ps
  induction ps with
  | nil => intro st _; simp [mapFrags]
  | cons p ps ih =>
    intro st h
    obtain ⟨pre, f⟩ := p
    by_cases hin : f.all pyIsSpace
    · have hrepl : ∀ svc, replOne svc f st = (f, st) := fun svc => by simp [replOne, hin]
      have hrec := ih st (fun pf hpf => h pf (List.mem_cons_of_mem _ hpf))
      simp only [mapFrags, hrepl]
      exact ⟨by rw [hrec.1], hrec.2.1, hrec.2.2⟩
    · have hsome : (dlookup st.cache f).isSome = true := by
        refine h (pre, f) (List.mem_cons_self _ _) ?_
        simpa using hin
      obtain ⟨v, hv⟩ := Option.isSome_iff_exists.mp hsome
      have hrepl : ∀ svc, replOne svc f st =
          (v, ⟨st.cache, st.changed || decide (¬v = f), st.calls⟩) := fun svc => by
        simp [replOne, hin, hv]
      have hrec := ih ⟨st.cache, st.changed || decide (¬v = f), st.calls⟩
        (fun pf hpf => h pf (List.mem_cons_of_mem _ hpf))
      simp only [mapFrags, hrepl]
      exact ⟨by rw [hrec.1], hrec.2.1, hrec.2.2⟩

/-- Under a warm cache, `translate_line` does not depend on the service,
leaves the cache unchanged and makes no external call. -/
theorem translate_line_warm (svc1 svc2 : Str → Str) (cache : Dict) (line : Str)
    (h : ∀ pf ∈ (scanFrags line).1, pf.2.all pyIsSpace = false →
      (dlookup cache pf.2).isSome = true) :
    translate_line svc1 cache line = translate_line svc2 cache line ∧
      (translate_line svc1 cache line).cache = cache ∧
      (translate_line svc1 cache line).calls = 0 := by
  by_cases hq : '"' ∈ line
  · have hmf := mapFrags_warm svc1 svc2 (scanFrags line).1 ⟨cache, false, 0⟩ h
    simp only [translate_line, if_pos hq]
    exact ⟨by rw [hmf.1], hmf.2.1, hmf.2.2⟩
  · simp [translate_line, hq]

/-- Under a warm cache, the whole fold does not depend on the service, keeps
the cache and makes zero external calls. -/
theorem lineFold_warm (svc1 svc2 : Str → Str) :
    ∀ (pieces : List Str) (cache : Dict), warmCache cache pieces →
      lineFold svc1 cache pieces = lineFold svc2 cache pieces ∧
        (lineFold svc1 cache pieces).cache = cache ∧
        (lineFold svc1 cache pieces).calls = 0 := by
  intro pieces
  induction pieces with
  | nil => intro cache _; simp [lineFold]
  | cons l ls ih =>
    intro cache h
    have hl := h l (List.mem_cons_self _ _)
    have hls : warmCache cache ls := fun p hp => h p (List.mem_cons_of_mem _ hp)
    by_cases hq : '"' ∈ l
    · have htw := translate_line_warm svc1 svc2 cache (rstripNL l) hl
      have hpr : ∀ svc, processRaw svc cache l =
          ⟨(translate_line svc cache (rstripNL l)).line ++ ['\n'],
            (translate_line svc cache (rstripNL l)).cache,
            (translate_line svc cache (rstripNL l)).calls,
            (translate_line svc cache (rstripNL l)).changed⟩ := fun svc => by
        simp [processRaw, hq]
      have hrec := ih (translate_line svc1 cache (rstripNL l)).cache
        (by rw [htw.2.1]; exact hls)
      simp only [lineFold, hpr]
      rw [htw.1] at hrec ⊢
      refine ⟨?_, ?_, ?_⟩
      · rw [hrec.1]
      · rw [hrec.2.1, ← htw.1, htw.2.1]
      · rw [hrec.2.2, ← htw.1, htw.2.2]
    · have hpr : ∀ svc, processRaw svc cache l = ⟨l, cache, 0, false⟩ := fun svc => by
        simp [processRaw, hq]
      have hrec := ih cache hls
      simp only [lineFold, hpr]
      exact ⟨by rw [hrec.1], by simpa using hrec.2.1, by simpa using hrec.2.2⟩

/-! ### The JSON round trip -/

theorem encBody_nil : encBody [] = [] := rfl

theorem encBody_cons (c : Char) (s : Str) : encBody (c :: s) = escChar c ++ encBody s := by
  simp [encBody]

theorem escChar_len (c : Char) : 1 ≤ (escChar c).length := by
  unfold escChar
  split_ifs <;> simp

theorem encBody_len (s : Str) : s.length ≤ (encBody s).length := by
  induction s with
  | nil => simp [encBody]
  | cons c s ih =>
    rw [encBody_cons]
    have := escChar_len c
    simp only [List.length_append, List.length_cons]
    omega

theorem hexDigitVal_hexDigitChar : ∀ n, n < 16 → hexDigitVal (hexDigitChar n) = some n := by
  decide

/-- Parsing inverts escaping for string bodies, given enough fuel. -/
theorem parseStrAux_enc : ∀ (s : Str) (fuel : Nat) (rest : Str), s.length + 1 ≤ fuel →
    parseStrAux fuel (encBody s ++ '"' :: rest) = some (s, rest) := by
  intro s
  induction s with
  | nil =>
    intro fuel rest hf
    obtain ⟨f, rfl⟩ : ∃ f, fuel = f + 1 := ⟨fuel - 1, by omega⟩
    simp [encBody, parseStrAux]
  | cons c s ih =>
    intro fuel rest hf
    obtain ⟨f, rfl⟩ : ∃ f, fuel = f + 1 := ⟨fuel - 1, by omega⟩
    have hrec := ih f rest (by simp at hf; omega)
    rw [encBody_cons, List.append_assoc]
    by_cases h1 : c = '"'
    · subst h1; simp [escChar, parseStrAux, decodeEsc, hrec]
    · by_cases h2 : c = '\\'
      · subst h2; simp [escChar, parseStrAux, decodeEsc, hrec]
      · by_cases h3 : c = '\n'
        · subst h3; simp [escChar, parseStrAux, decodeEsc, hrec]
        · by_cases h4 : c = '\x09'
          · subst h4; simp [escChar, parseStrAux, decodeEsc, hrec]
          · by_cases h5 : c = '\x0d'
            · subst h5; simp [escChar, parseStrAux, decodeEsc, hrec]
            · by_cases h6 : c = '\x08'
              · subst h6; simp [escChar, parseStrAux, decodeEsc, hrec]
              · by_cases h7 : c = '\x0c'
                · subst h7; simp [escChar, parseStrAux, decodeEsc, hrec]
                · by_cases h8 : c.toNat < 32
                  · have hesc : escChar c = ['\\', 'u', '0', '0',
                        hexDigitChar (c.toNat / 16), hexDigitChar (c.toNat % 16)] := by
                      simp [escChar, h1, h2, h3, h4, h5, h6, h7, h8]
                    have h0 : hexDigitVal '0' = some 0 := by decide
                    have hd1 : hexDigitVal (hexDigitChar (c.toNat / 16)) = some (c.toNat / 16) :=
                      hexDigitVal_hexDigitChar _ (by omega)
                    have hd2 : hexDigitVal (hexDigitChar (c.toNat % 16)) = some (c.toNat % 16) :=
                      hexDigitVal_hexDigitChar _ (by omega)
                    have hsur : ¬(0xd800 ≤ c.toNat ∧ c.toNat ≤ 0xdbff) := by omega
                    have hn : c.toNat / 16 * 16 + c.toNat % 16 = c.toNat := by omega
                    rw [hesc]
                    simp [parseStrAux, decodeEsc, hex4, h0, hd1, hd2, hn,
                      hsur, Char.ofNat_toNat, hrec]
                  · have hesc : escChar c = [c] := by
                      simp [escChar, h1, h2, h3, h4, h5, h6, h7, h8]
                    rw [hesc]
                    simp [parseStrAux, h1, h2, h8, hrec]

/-- `json`'s string reader inverts `json.dump`'s string writer. -/
theorem parseStr_enc (s rest : Str) :
    parseStr (encBody s ++ '"' :: rest) = some (s, rest) := by
  unfold parseStr
  refine parseStrAux_enc s _ rest ?_
  have := encBody_len s
  simp only [List.length_append, List.length_cons]
  omega

theorem skipWs_cons_false (c : Char) (cs : Str)
    (h : decide (c.toNat = 32 ∨ c.toNat = 9 ∨ c.toNat = 10 ∨ c.toNat = 13) = false) :
    skipWs (c :: cs) = c :: cs := by
  simp only [skipWs, List.dropWhile_cons, h]
  simp

theorem skipWs_cons_true (c : Char) (cs : Str)
    (h : decide (c.toNat = 32 ∨ c.toNat = 9 ∨ c.toNat = 10 ∨ c.toNat = 13) = true) :
    skipWs (c :: cs) = skipWs cs := by
  simp only [skipWs, List.dropWhile_cons, h]
  simp

theorem skipWs_quote (cs : Str) : skipWs ('"' :: cs) = '"' :: cs :=
  skipWs_cons_false _ _ (by decide)

theorem skipWs_colon (cs : Str) : skipWs (':' :: cs) = ':' :: cs :=
  skipWs_cons_false _ _ (by decide)

theorem skipWs_comma (cs : Str) : skipWs (',' :: cs) = ',' :: cs :=
  skipWs_cons_false _ _ (by decide)

theorem skipWs_rb (cs : Str) : skipWs ('\x7d' :: cs) = '\x7d' :: cs :=
  skipWs_cons_false _ _ (by decide)

theorem skipWs_lb (cs : Str) : skipWs ('\x7b' :: cs) = '\x7b' :: cs :=
  skipWs_cons_false _ _ (by decide)

theorem skipWs_sp (cs : Str) : skipWs (' ' :: cs) = skipWs cs :=
  skipWs_cons_true _ _ (by decide)

theorem skipWs_nl (cs : Str) : skipWs ('\n' :: cs) = skipWs cs :=
  skipWs_cons_true _ _ (by decide)

theorem skipWs_nil : skipWs [] = [] := rfl

theorem encStr_cons (s rest : Str) :
    encStr s ++ rest = '"' :: (encBody s ++ '"' :: rest) := by
  simp [encStr]

theorem parseVal_str (fuel : Nat) (s rest : Str) :
    parseVal (fuel + 1) ('"' :: (encBody s ++ '"' :: rest)) = some (JVal.jstr s, rest) := by
  rw [parseVal]
  simp [parseStr_enc]

theorem parseMembers_ws (fuel : Nat) (cs : Str) :
    parseMembers (fuel + 1) ('\n' :: ' ' :: ' ' :: cs) = parseMembers (fuel + 1) cs := by
  rw [parseMembers, parseMembers, skipWs_nl, skipWs_sp, skipWs_sp]

/-- The object branch of the value reader when the first member follows. -/
theorem parseVal_obj (fuel : Nat) (cs zz : Str) (hs : skipWs cs = '"' :: zz) :
    parseVal (fuel + 1) ('\x7b' :: cs) =
      (parseMembers fuel ('"' :: zz)).map (fun p => (JVal.jobj (buildDict p.1), p.2)) := by
  rw [parseVal]
  simp [hs]

/-- Parsing inverts serialization for a nonempty member list followed by the
closing newline and brace. -/
theorem parseMembers_enc : ∀ (d : Dict) (k v : Str) (fuel : Nat) (rest : Str),
    d.length + 2 ≤ fuel →
    parseMembers fuel (encMembers ((k, v) :: d) ++ '\n' :: '\x7d' :: rest) =
      some (jsMap ((k, v) :: d), rest) := by
  intro d
  induction d with
  | nil =>
    intro k v fuel rest hf
    obtain ⟨f, rfl⟩ : ∃ f, fuel = f + 1 := ⟨fuel - 1, by omega⟩
    obtain ⟨g, rfl⟩ : ∃ g, f = g + 1 := ⟨f - 1, by omega⟩
    have hshape : encMembers [(k, v)] ++ '\n' :: '\x7d' :: rest =
        '"' :: (encBody k ++ '"' :: (':' :: ' ' ::
          ('"' :: (encBody v ++ '"' :: ('\n' :: '\x7d' :: rest))))) := by
      simp [encMembers, encMember, encStr]
    rw [hshape, parseMembers, skipWs_quote]
    simp only [parseStr_enc, skipWs_colon, skipWs_sp, skipWs_quote, skipWs_nl,
      skipWs_rb, parseVal_str, jsMap, List.map_cons, List.map_nil]
  | cons kv2 d ih =>
    intro k v fuel rest hf
    obtain ⟨f, rfl⟩ : ∃ f, fuel = f + 1 := ⟨fuel - 1, by omega⟩
    obtain ⟨g, rfl⟩ : ∃ g, f = g + 1 := ⟨f - 1, by omega⟩
    obtain ⟨k2, v2⟩ := kv2
    have hshape : encMembers ((k, v) :: (k2, v2) :: d) ++ '\n' :: '\x7d' :: rest =
        '"' :: (encBody k ++ '"' :: (':' :: ' ' ::
          ('"' :: (encBody v ++ '"' :: (',' :: '\n' :: ' ' :: ' ' ::
            (encMembers ((k2, v2) :: d) ++ '\n' :: '\x7d' :: rest)))))) := by
      simp [encMembers, encMember, encStr]
    have hih := ih k2 v2 (g + 1) rest (by simp at hf ⊢; omega)
    rw [hshape, parseMembers, skipWs_quote]
    simp only [parseStr_enc, skipWs_colon, skipWs_sp, skipWs_quote, skipWs_nl,
      skipWs_comma, parseVal_str, parseMembers_ws, hih, jsMap, List.map_cons]

theorem setKey_notMem : ∀ (acc : List (Str × JVal)) (k : Str) (v : JVal),
    k ∉ acc.map Prod.fst → setKey acc k v = acc ++ [(k, v)] := by
  intro acc
  induction acc with
  | nil => intro k v _; simp [setKey]
  | cons kv acc ih =>
    intro k v h
    obtain ⟨k2, v2⟩ := kv
    simp only [List.map_cons, List.mem_cons] at h
    push_neg at h
    rw [setKey, if_neg (fun he => h.1 he.symm), ih k v h.2]
    simp

theorem buildDict_go : ∀ (kvs acc : List (Str × JVal)), (kvs.map Prod.fst).Nodup →
    (∀ k ∈ acc.map Prod.fst, k ∉ kvs.map Prod.fst) →
    kvs.foldl (fun a kv => setKey a kv.1 kv.2) acc = acc ++ kvs := by
  intro kvs
  induction kvs with
  | nil => intro acc _ _; simp
  | cons kv kvs ih =>
    intro acc hnd hdisj
    obtain ⟨k, v⟩ := kv
    simp only [List.map_cons, List.nodup_cons] at hnd
    have hkmem : k ∈ List.map Prod.fst ((k, v) :: kvs) :=
      List.mem_map.mpr ⟨(k, v), List.mem_cons_self _ _, rfl⟩
    have hk : k ∉ acc.map Prod.fst := fun hm => hdisj k hm hkmem
    have hdisj2 : ∀ k2 ∈ (acc ++ [(k, v)]).map Prod.fst, k2 ∉ kvs.map Prod.fst := by
      intro k2 hk2 hk2m
      rw [List.map_append] at hk2
      rcases List.mem_append.mp hk2 with hk2 | hk2
      · exact hdisj k2 hk2 (by rw [List.map_cons]; exact List.mem_cons_of_mem _ hk2m)
      · have : k2 = k := by simpa using hk2
        exact hnd.1 (this ▸ hk2m)
    rw [List.foldl_cons]
    rw [show setKey acc (k, v).1 (k, v).2 = acc ++ [(k, v)] from setKey_notMem acc k v hk]
    rw [ih (acc ++ [(k, v)]) hnd.2 hdisj2]
    simp

/-- With distinct keys, the `dict` built from parsed members is the member
list itself. -/
theorem buildDict_nodup (kvs : List (Str × JVal)) (h : (kvs.map Prod.fst).Nodup) :
    buildDict kvs = kvs := by
  unfold buildDict
  have hd : ∀ k ∈ ([] : List (Str × JVal)).map Prod.fst, k ∉ kvs.map Prod.fst := by
    intro k hk
    exact absurd hk (by simp)
  rw [buildDict_go kvs [] h hd]
  simp

theorem jsMap_fst (d : Dict) : (jsMap d).map Prod.fst = d.map Prod.fst := by
  simp [jsMap]

theorem jMembersToDict_jsMap : ∀ (d : Dict), jMembersToDict (jsMap d) = some d := by
  intro d
  induction d with
  | nil => rfl
  | cons kv d ih =>
    obtain ⟨k, v⟩ := kv
    simp [jsMap, jMembersToDict] at ih ⊢
    rw [ih]

/-- The serialized dump of a mapping with distinct keys parses back to the
same mapping. -/
theorem parseJson_dump (d : Dict) (h : (d.map Prod.fst).Nodup) :
    parseJson (dumpCache d) = some (JVal.jobj (jsMap d)) := by
  cases d with
  | nil => rfl
  | cons kv d =>
    obtain ⟨k, v⟩ := kv
    have hhead : ∃ zz, encMembers ((k, v) :: d) = '"' :: zz := by
      cases d with
      | nil =>
        refine ⟨encBody k ++ '"' :: ':' :: ' ' :: '"' :: (encBody v ++ ['"']), ?_⟩
        simp [encMembers, encMember, encStr]
      | cons kv2 d =>
        refine ⟨encBody k ++ '"' :: ':' :: ' ' :: '"' ::
          (encBody v ++ '"' :: ',' :: '\n' :: ' ' :: ' ' :: encMembers (kv2 :: d)), ?_⟩
        simp [encMembers, encMember, encStr]
    obtain ⟨zz, hzz⟩ := hhead
    have hlen : d.length + 2 ≤ (dumpCache ((k, v) :: d)).length := by
      have h1 : ((k, v) :: d).length ≤ (encMembers ((k, v) :: d)).length := by
        clear hzz h
        induction d generalizing k v with
        | nil => simp [encMembers, encMember, encStr]
        | cons kv2 d ih =>
          obtain ⟨k2, v2⟩ := kv2
          have := ih k2 v2
          simp only [encMembers, encMember, encStr, List.length_cons,
            List.length_append] at this ⊢
          omega
      simp only [dumpCache, List.length_cons, List.length_append] at h1 ⊢
      omega
    have hdshape : dumpCache ((k, v) :: d) =
        '\x7b' :: ('\n' :: ' ' :: ' ' ::
          (encMembers ((k, v) :: d) ++ '\n' :: '\x7d' :: [])) := by
      simp [dumpCache]
    have hskip : skipWs (encMembers ((k, v) :: d) ++ '\n' :: '\x7d' :: []) =
        encMembers ((k, v) :: d) ++ '\n' :: '\x7d' :: [] := by
      rw [hzz]
      simpa using skipWs_quote (zz ++ '\n' :: '\x7d' :: [])
    have hmem := parseMembers_enc d k v (dumpCache ((k, v) :: d)).length []
      (by omega)
    rw [hdshape] at hmem
    rw [hzz] at hmem
    simp only [List.cons_append] at hmem
    have hs : skipWs ('\n' :: ' ' :: ' ' ::
        (encMembers ((k, v) :: d) ++ '\n' :: '\x7d' :: [])) =
        '"' :: (zz ++ '\n' :: '\x7d' :: []) := by
      rw [skipWs_nl, skipWs_sp, skipWs_sp, hskip, hzz]
      simp
    unfold parseJson
    rw [hdshape, skipWs_lb, parseVal_obj _ _ _ hs, hzz]
    simp only [List.cons_append]
    rw [hmem]
    simp only [Option.map]
    rw [buildDict_nodup (jsMap ((k, v) :: d)) (by rw [jsMap_fst]; exact h)]
    simp [skipWs_nil]

/-- `load(flush(mapping)) = mapping` at the JSON level. -/
theorem load_save (d : Dict) (h : (d.map Prod.fst).Nodup) :
    load_cache (FileContent.stored (save_cache d)) = JVal.jobj (jsMap d) := by
  simp only [save_cache, load_cache]
  rw [parseJson_dump d h]

/-! ### Remaining cache lemmas -/

theorem dlookup_append_self : ∀ (d : Dict) (k v : Str), dlookup d k = none →
    dlookup (d ++ [(k, v)]) k = some v := by
  intro d
  induction d with
  | nil => intro k v _; simp [dlookup]
  | cons kv d ih =>
    intro k v h
    obtain ⟨k2, v2⟩ := kv
    by_cases he : k2 = k
    · subst he; simp [dlookup] at h
    · rw [dlookup, if_neg he] at h
      rw [List.cons_append, dlookup, if_neg he]
      exact ih k v h

/-- `_repl` only adds entries to the cache: an existing association survives
processing any further fragments. -/
theorem mapFrags_cache_mono (svc : Str → Str) :
    ∀ (ps : List (Str × Str)) (st : FragState) (k v : Str),
      dlookup st.cache k = some v → dlookup (mapFrags svc ps st).2.cache k = some v := by
  intro ps
  induction ps with
  | nil => intro st k v h; simpa [mapFrags] using h
  | cons p ps ih =>
    intro st k v h
    obtain ⟨pre, f⟩ := p
    by_cases hin : f.all pyIsSpace
    · have hrepl : replOne svc f st = (f, st) := by simp [replOne, hin]
      simp only [mapFrags, hrepl]
      exact ih st k v h
    · cases hlk : dlookup st.cache f with
      | some w =>
        have hrepl : replOne svc f st =
            (w, ⟨st.cache, st.changed || decide (¬w = f), st.calls⟩) := by
          simp [replOne, hin, hlk]
        simp only [mapFrags, hrepl]
        exact ih _ k v h
      | none =>
        have hrepl : replOne svc f st =
            (svc f, ⟨st.cache ++ [(f, svc f)], st.changed || decide (¬svc f = f),
              st.calls + 1⟩) := by
          simp [replOne, hin, hlk]
        simp only [mapFrags, hrepl]
        exact ih _ k v (dlookup_append_left st.cache [(f, svc f)] k v h)

/-- Inert fragments pass through `_repl` without any state change. -/
theorem mapFrags_inert (svc : Str → Str) :
    ∀ (ps : List (Str × Str)) (st : FragState),
      (∀ pf ∈ ps, pf.2.all pyIsSpace = true) → mapFrags svc ps st = (ps, st) := by
  intro ps
  induction ps with
  | nil => intro st _; simp [mapFrags]
  | cons p ps ih =>
    intro st h
    obtain ⟨pre, f⟩ := p
    have hf : f.all pyIsSpace = true := by
      have := h (pre, f) (List.mem_cons_self _ _)
      simpa using this
    have hrepl : replOne svc f st = (f, st) := by simp [replOne, hf]
    simp only [mapFrags, hrepl, ih st (fun pf hpf => h pf (List.mem_cons_of_mem _ hpf))]

/-! ### Lemmas for the latin1 model -/

theorem latin1_total : ∀ (bs : List Nat), (∀ b ∈ bs, b < 256) →
    latin1DecodeIgnore bs = bs.map Char.ofNat ∧
    (latin1DecodeIgnore bs).length = bs.length := by
  intro bs
  induction bs with
  | nil => intro _; simp [latin1DecodeIgnore]
  | cons b bs ih =>
    intro h
    have hb : b < 256 := h b (List.mem_cons_self _ _)
    have hrec := ih (fun x hx => h x (List.mem_cons_of_mem _ hx))
    have hmap : latin1DecodeIgnore (b :: bs) = (b :: bs).map Char.ofNat := by
      simp only [latin1DecodeIgnore, List.filterMap_cons, latin1DecodeByte, if_pos hb,
        List.map_cons]
      exact congrArg _ hrec.1
    exact ⟨hmap, by rw [hmap]; simp⟩

/-! ### The claims -/

/-- C1 (counterexample): the claim "only the contents of quoted fragments may
differ between input and output, and the output file has the same line count"
fails on the code.  First, a one-line input `x"a"` with no trailing newline
and an identity translation yields the output `x"a"\n`: the files differ by
an appended newline although no fragment content changed.  Second, a service
whose translation contains a newline turns the one-line input `"a"\n` into a
two-line output file. -/
theorem claim_C1_cex :
    (runPipeline (fun t => t) (fun _ => false) none [] ['x', '"', 'a', '"']).out =
      ['x', '"', 'a', '"', '\n'] ∧
    ¬(runPipeline (fun t => t) (fun _ => false) none [] ['x', '"', 'a', '"']).out =
      ['x', '"', 'a', '"'] ∧
    (splitLines (runPipeline (fun _ => ['p', '\n', 'q']) (fun _ => false) none []
      ['"', 'a', '"', '\n']).out).length = 2 ∧
    (splitLines ['"', 'a', '"', '\n']).length = 1 := by
  refine ⟨?_, ?_, ?_, ?_⟩ <;> decide

/-- C1 (amended): for every input line, the transformation preserves every
non-fragment, non-quote character and every quote delimiter of the
newline-stripped line exactly — the line is the interleaving of its literal
pieces with quoted fragments, and the output is the same interleaving with
only the fragment contents replaced; and, provided every value substituted
into the file (service output or cache value) is newline-free, the output
file has the same line count as the input.  (A final line that contains a
quote character and lacks a trailing newline gains one, which is the only
byte-level difference outside fragments.) -/
theorem claim_C1_amended :
    (∀ line : Str, line = renderFrags (scanFrags line).1 (scanFrags line).2) ∧
    (∀ (svc : Str → Str) (cache : Dict) (line : Str),
      (translate_line svc cache line).line =
        renderFrags (mapFrags svc (scanFrags line).1 ⟨cache, false, 0⟩).1
          (scanFrags line).2 ∧
      (mapFrags svc (scanFrags line).1 ⟨cache, false, 0⟩).1.map Prod.fst =
        (scanFrags line).1.map Prod.fst) ∧
    (∀ (svc : Str → Str) (timer : Nat → Bool) (cache : Dict) (input : Str),
      (∀ t, '\n' ∉ svc t) → (∀ kv ∈ cache, '\n' ∉ kv.2) →
      (splitLines (runPipeline svc timer none cache input).out).length =
        (splitLines input).length) := by
  refine ⟨fun line => (render_scan line).symm, ?_, ?_⟩
  · intro svc cache line
    constructor
    · by_cases hq : '"' ∈ line
      · simp [translate_line, hq]
      · have hsc : scanFrags line = ([], line) := scan_no_quote line hq
        simp [translate_line, hq, hsc, mapFrags, renderFrags]
    · exact mapFrags_fst svc _ _
  · intro svc timer cache input hsvc hcache
    have hrl := (runLoop_none svc timer (splitLines input) 0 ⟨[], cache, 0, 0, 0, 0⟩).1
    simp only [List.nil_append] at hrl
    rw [show runPipeline svc timer none cache input =
      runLoop svc timer none 0 ⟨[], cache, 0, 0, 0, 0⟩ (splitLines input) from rfl]
    rw [hrl]
    exact lineFold_count svc hsvc (splitLines input) (splitLines_linesOf input) cache hcache

/-- C1 (witness): the amended line-count clause at a concrete run. -/
theorem claim_C1_witness :
    (splitLines (runPipeline (fun _ => ['Z']) (fun _ => false) none []
      ['a', '"', 'b', '"', '\n']).out).length =
      (splitLines ['a', '"', 'b', '"', '\n']).length := by
  have hz : ('\n' : Char) ∉ (['Z'] : Str) := by decide
  exact claim_C1_amended.2.2 (fun _ => ['Z']) (fun _ => false) [] ['a', '"', 'b', '"', '\n']
    (fun t => hz) (fun kv hkv => absurd hkv (by simp))

/-- C2: with a translation capability that fails exactly `k` times and then
succeeds, `translate_text_frag` returns the successful translation after
exactly `k` backoff sleeps of `BASE_BACKOFF * 2^i` seconds (one retry warning
per failed attempt, no giving-up warning) when `k < RETRY_LIMIT`; when
`k ≥ RETRY_LIMIT` it performs exactly `RETRY_LIMIT` backoff sleeps, warns
once per failed attempt plus a final giving-up warning, and returns the
original text unchanged. -/
theorem claim_C2 (oracle : Nat → Option Str) (text t : Str) (k : Nat)
    (hfail : ∀ i, i < k → oracle i = none) (hsucc : oracle k = some t) :
    (k < RETRY_LIMIT →
      translate_text_frag oracle text =
        ⟨t, (List.range k).map (fun i => BASE_BACKOFF * 2 ^ i), k, false⟩) ∧
    (RETRY_LIMIT ≤ k →
      translate_text_frag oracle text =
        ⟨text, (List.range RETRY_LIMIT).map (fun i => BASE_BACKOFF * 2 ^ i),
          RETRY_LIMIT, true⟩) := by
  constructor
  · intro hk
    have := fragLoop_success oracle text t k 0 RETRY_LIMIT
      (fun i hi => by simpa using hfail i hi) (by simpa using hsucc) hk
    simpa [translate_text_frag] using this
  · intro hk
    have := fragLoop_exhaust oracle text RETRY_LIMIT 0
      (fun i hi => by simpa using hfail i (lt_of_lt_of_le hi hk))
    simpa [translate_text_frag] using this

/-- C2 (witness): two failures then success gives the translation after the
sleeps 0.75 and 1.5; seven failures exhausts the five attempts and falls
back to the original text. -/
theorem claim_C2_witness :
    translate_text_frag (fun i => if i < 2 then none else some ['T']) ['x'] =
      ⟨['T'], (List.range 2).map (fun i => BASE_BACKOFF * 2 ^ i), 2, false⟩ ∧
    translate_text_frag (fun i => if i < 7 then none else some ['T']) ['x'] =
      ⟨['x'], (List.range RETRY_LIMIT).map (fun i => BASE_BACKOFF * 2 ^ i),
        RETRY_LIMIT, true⟩ :=
  ⟨(claim_C2 (fun i => if i < 2 then none else some ['T']) ['x'] ['T'] 2
      (by decide) (by decide)).1 (by decide),
   (claim_C2 (fun i => if i < 7 then none else some ['T']) ['x'] ['T'] 7
      (by decide) (by decide)).2 (by decide)⟩

/-- C3: with a warm cache (every non-inert fragment of the input is a cache
key), two runs of the pipeline over the same input — the second starting
from the cache the first ends (and flushes) — produce byte-identical output,
the second run makes zero calls to the external capability, and the cache is
unchanged by the first run. -/
theorem claim_C3 (input : Str) (cache : Dict) (svc1 svc2 : Str → Str)
    (timer1 timer2 : Nat → Bool) (h : warmCache cache (splitLines input)) :
    (runPipeline svc1 timer1 none cache input).out =
      (runPipeline svc2 timer2 none
        ((runPipeline svc1 timer1 none cache input).cache) input).out ∧
    (runPipeline svc2 timer2 none
      ((runPipeline svc1 timer1 none cache input).cache) input).calls = 0 ∧
    (runPipeline svc1 timer1 none cache input).cache = cache := by
  have hw12 := lineFold_warm svc1 svc2 (splitLines input) cache h
  have hw21 := lineFold_warm svc2 svc1 (splitLines input) cache h
  have h1 := runLoop_none svc1 timer1 (splitLines input) 0 ⟨[], cache, 0, 0, 0, 0⟩
  have h2 := runLoop_none svc2 timer2 (splitLines input) 0 ⟨[], cache, 0, 0, 0, 0⟩
  have hcache1 : (runPipeline svc1 timer1 none cache input).cache = cache := by
    rw [show runPipeline svc1 timer1 none cache input =
      runLoop svc1 timer1 none 0 ⟨[], cache, 0, 0, 0, 0⟩ (splitLines input) from rfl]
    rw [h1.2.1]
    exact hw12.2.1
  refine ⟨?_, ?_, hcache1⟩
  · rw [hcache1]
    rw [show runPipeline svc1 timer1 none cache input =
      runLoop svc1 timer1 none 0 ⟨[], cache, 0, 0, 0, 0⟩ (splitLines input) from rfl]
    rw [show runPipeline svc2 timer2 none cache input =
      runLoop svc2 timer2 none 0 ⟨[], cache, 0, 0, 0, 0⟩ (splitLines input) from rfl]
    rw [h1.1, h2.1, hw12.1]
  · rw [hcache1]
    rw [show runPipeline svc2 timer2 none cache input =
      runLoop svc2 timer2 none 0 ⟨[], cache, 0, 0, 0, 0⟩ (splitLines input) from rfl]
    rw [h2.2.2]
    simp only [Nat.zero_add]
    exact hw21.2.2

/-- C3 (witness): a warm run over a two-line input with two different
services and timers. -/
theorem claim_C3_witness :
    (runPipeline (fun _ => ['A']) (fun _ => false) none [(['h'], ['H'])]
      ['s', '"', 'h', '"', '\n', 'n', 'o', '\n']).out =
      (runPipeline (fun _ => ['B']) (fun _ => true) none
        ((runPipeline (fun _ => ['A']) (fun _ => false) none [(['h'], ['H'])]
          ['s', '"', 'h', '"', '\n', 'n', 'o', '\n']).cache)
        ['s', '"', 'h', '"', '\n', 'n', 'o', '\n']).out ∧
    (runPipeline (fun _ => ['B']) (fun _ => true) none
      ((runPipeline (fun _ => ['A']) (fun _ => false) none [(['h'], ['H'])]
        ['s', '"', 'h', '"', '\n', 'n', 'o', '\n']).cache)
      ['s', '"', 'h', '"', '\n', 'n', 'o', '\n']).calls = 0 ∧
    (runPipeline (fun _ => ['A']) (fun _ => false) none [(['h'], ['H'])]
      ['s', '"', 'h', '"', '\n', 'n', 'o', '\n']).cache = [(['h'], ['H'])] :=
  claim_C3 ['s', '"', 'h', '"', '\n', 'n', 'o', '\n'] [(['h'], ['H'])]
    (fun _ => ['A']) (fun _ => ['B']) (fun _ => false) (fun _ => true)
    (by unfold warmCache; decide)

/-- C4 (counterexample): the claim "if a fragment's exact text exists as a
cache key, the cached value is substituted" fails for an inert fragment: the
whitespace fragment `"  "` is a cache key mapped to `X`, yet the line passes
through unchanged and `X` is not substituted. -/
theorem claim_C4_cex :
    (translate_line (fun _ => ['Z']) [([' ', ' '], ['X'])]
      ['a', '"', ' ', ' ', '"', 'b']).line = ['a', '"', ' ', ' ', '"', 'b'] ∧
    ¬(translate_line (fun _ => ['Z']) [([' ', ' '], ['X'])]
      ['a', '"', ' ', ' ', '"', 'b']).line = ['a', '"', 'X', '"', 'b'] := by
  refine ⟨?_, ?_⟩ <;> decide

/-- C4 (amended): for every fragment occurrence whose exact text is a cache
key, the external translation capability is never invoked and the cache is
unchanged; a non-inert fragment is replaced by the cached value, while an
empty or whitespace-only fragment is emitted unchanged even when its text is
a cache key. -/
theorem claim_C4_amended (svc : Str → Str) (inner v : Str) (st : FragState)
    (h : dlookup st.cache inner = some v) :
    (replOne svc inner st).2.calls = st.calls ∧
    (replOne svc inner st).2.cache = st.cache ∧
    (inner.all pyIsSpace = false → (replOne svc inner st).1 = v) ∧
    (inner.all pyIsSpace = true → (replOne svc inner st).1 = inner) := by
  by_cases hin : inner.all pyIsSpace <;> simp [replOne, hin, h]

/-- C4 (witness): a cache hit on a non-inert fragment substitutes the cached
value with no call and no cache change. -/
theorem claim_C4_witness :
    (replOne (fun _ => ['Z']) ['h'] ⟨[(['h'], ['H'])], false, 0⟩).2.calls = 0 ∧
    (replOne (fun _ => ['Z']) ['h'] ⟨[(['h'], ['H'])], false, 0⟩).2.cache =
      [(['h'], ['H'])] ∧
    (replOne (fun _ => ['Z']) ['h'] ⟨[(['h'], ['H'])], false, 0⟩).1 = ['H'] := by
  have h := claim_C4_amended (fun _ => ['Z']) ['h'] ['H']
    ⟨[(['h'], ['H'])], false, 0⟩ (by decide)
  exact ⟨h.1, h.2.1, h.2.2.1 (by decide)⟩

/-- C5: flushing a mapping and loading it back reproduces the mapping — the
loaded JSON value is exactly the object with the original entries, and read
back as a `Dict` it equals the original mapping. -/
theorem claim_C5 (d : Dict) (h : (d.map Prod.fst).Nodup) :
    load_cache (FileContent.stored (save_cache d)) = JVal.jobj (jsMap d) ∧
    jToDict (load_cache (FileContent.stored (save_cache d))) = some d := by
  have hl := load_save d h
  refine ⟨hl, ?_⟩
  rw [hl]
  simp only [jToDict]
  exact jMembersToDict_jsMap d

/-- C5 (witness): a two-entry mapping with quotes, backslashes and a newline
in the values round-trips. -/
theorem claim_C5_witness :
    (([(['a'], ['b', '\n', 'c']), ([], ['"', '\\'])] : Dict).map Prod.fst).Nodup ∧
    jToDict (load_cache (FileContent.stored (save_cache
      [(['a'], ['b', '\n', 'c']), ([], ['"', '\\'])]))) =
      some [(['a'], ['b', '\n', 'c']), ([], ['"', '\\'])] :=
  ⟨by decide, (claim_C5 [(['a'], ['b', '\n', 'c']), ([], ['"', '\\'])] (by decide)).2⟩

/-- C6 (code evaluation): `load_cache` never raises and returns an empty
mapping for a missing or unreadable location and for content that fails JSON
parsing — but content that parses as a non-object JSON value (here `[]`) is
returned as-is, which is not an empty mapping: this contradicts the
function's own `Dict[str, str]` annotation and the claim. -/
theorem claim_C6_eval :
    load_cache FileContent.absent = JVal.jobj [] ∧
    load_cache FileContent.unreadable = JVal.jobj [] ∧
    load_cache (FileContent.stored ['x']) = JVal.jobj [] ∧
    load_cache (FileContent.stored ['[', ']']) = JVal.jarr [] ∧
    ¬JVal.jarr [] = JVal.jobj [] :=
  ⟨rfl, rfl, rfl, rfl, fun h => JVal.noConfusion h⟩

/-- C7: an empty or all-whitespace fragment is inert — `_repl` emits it
unchanged with no cache interaction and no call, and a line whose fragments
are all inert passes through `translate_line` completely unchanged (same
quotes, unchanged cache, zero calls, `changed = false`). -/
theorem claim_C7 :
    (∀ (svc : Str → Str) (inner : Str) (st : FragState),
      inner.all pyIsSpace = true → replOne svc inner st = (inner, st)) ∧
    (∀ (svc : Str → Str) (cache : Dict) (line : Str),
      (∀ pf ∈ (scanFrags line).1, pf.2.all pyIsSpace = true) →
      translate_line svc cache line = ⟨line, false, cache, 0⟩) := by
  constructor
  · intro svc inner st h
    simp [replOne, h]
  · intro svc cache line h
    by_cases hq : '"' ∈ line
    · have hmf := mapFrags_inert svc (scanFrags line).1 ⟨cache, false, 0⟩ h
      simp [translate_line, hq, hmf, render_scan]
    · simp [translate_line, hq]

/-- C7 (witness): the whitespace fragment in `a" "b` passes through with no
state change. -/
theorem claim_C7_witness :
    replOne (fun _ => ['Z']) [' '] ⟨[], false, 0⟩ = ([' '], ⟨[], false, 0⟩) ∧
    translate_line (fun _ => ['Z']) [] ['a', '"', ' ', '"', 'b'] =
      ⟨['a', '"', ' ', '"', 'b'], false, [], 0⟩ :=
  ⟨claim_C7.1 (fun _ => ['Z']) [' '] ⟨[], false, 0⟩ (by decide),
   claim_C7.2 (fun _ => ['Z']) [] ['a', '"', ' ', '"', 'b'] (by decide)⟩

/-- C8: an operator interruption observed while line `j` is being processed
makes the pipeline flush the cache exactly once in the handler, report the
partial-output path, and end as a handled exit with status 1 (not a crash,
and not the normal path's final flush); the output and the flushed cache are
exactly those of the run truncated to the `j` fully processed lines. -/
theorem claim_C8 (svc : Str → Str) (timer : Nat → Bool) (cache : Dict)
    (input : Str) (j : Nat) (hj : j < (splitLines input).length) :
    (runPipeline svc timer (some j) cache input).handlerSaves = 1 ∧
    (runPipeline svc timer (some j) cache input).term = Term.handledExit 1 ∧
    (runPipeline svc timer (some j) cache input).reportedPartial = true ∧
    (runPipeline svc timer (some j) cache input).finalSave = false ∧
    (runPipeline svc timer (some j) cache input).out =
      (runLoop svc timer none 0 ⟨[], cache, 0, 0, 0, 0⟩ ((splitLines input).take j)).out ∧
    (runPipeline svc timer (some j) cache input).cache =
      (runLoop svc timer none 0 ⟨[], cache, 0, 0, 0, 0⟩ ((splitLines input).take j)).cache := by
  have h := runLoop_intr svc timer j (splitLines input) 0 ⟨[], cache, 0, 0, 0, 0⟩ hj
  rw [Nat.zero_add] at h
  rw [show runPipeline svc timer (some j) cache input =
    runLoop svc timer (some j) 0 ⟨[], cache, 0, 0, 0, 0⟩ (splitLines input) from rfl, h]
  simp

/-- C8 (witness): interrupting a two-line run while the second line is
processed leaves exactly the first line in the output, with the handled
exit status and the single handler flush. -/
theorem claim_C8_witness :
    1 < (splitLines ['h', 'i', '\n', '"', 'a', '"', '\n']).length ∧
    (runPipeline (fun _ => ['Z']) (fun _ => false) (some 1) []
      ['h', 'i', '\n', '"', 'a', '"', '\n']).handlerSaves = 1 ∧
    (runPipeline (fun _ => ['Z']) (fun _ => false) (some 1) []
      ['h', 'i', '\n', '"', 'a', '"', '\n']).term = Term.handledExit 1 ∧
    (runPipeline (fun _ => ['Z']) (fun _ => false) (some 1) []
      ['h', 'i', '\n', '"', 'a', '"', '\n']).out =
      (runLoop (fun _ => ['Z']) (fun _ => false) none 0 ⟨[], [], 0, 0, 0, 0⟩
        ((splitLines ['h', 'i', '\n', '"', 'a', '"', '\n']).take 1)).out := by
  have h := claim_C8 (fun _ => ['Z']) (fun _ => false) []
    ['h', 'i', '\n', '"', 'a', '"', '\n'] 1 (by decide)
  exact ⟨by decide, h.1, h.2.1, h.2.2.2.2.1⟩

/-- C9: the input is decoded with the fixed `latin1` codec, which is total on
bytes — decoding never fails, no byte is dropped (the decoded text has one
scalar per input byte), and the set of undecodable bytes is empty, so the
claim's substitution clause holds vacuously. -/
theorem claim_C9 :
    (∀ b : Nat, b < 256 → latin1DecodeByte b = some (Char.ofNat b)) ∧
    (∀ bs : List Nat, (∀ b ∈ bs, b < 256) →
      latin1DecodeIgnore bs = bs.map Char.ofNat ∧
      (latin1DecodeIgnore bs).length = bs.length) := by
  refine ⟨?_, latin1_total⟩
  intro b hb
  simp [latin1DecodeByte, hb]

/-- C9 (witness): a concrete byte sequence decodes losslessly. -/
theorem claim_C9_witness :
    latin1DecodeIgnore [87, 255, 10] = [87, 255, 10].map Char.ofNat ∧
    (latin1DecodeIgnore [87, 255, 10]).length = 3 := by
  have h := claim_C9.2 [87, 255, 10] (by decide)
  exact ⟨h.1, h.2⟩

/-- C10 (implicit): when the translator exhausts all retries for a non-inert
uncached fragment, the fallback (the original text) is stored in the cache
keyed by that text; every later occurrence is then a cache hit that makes no
further call (the association survives any further fragment processing), and
a future run that loads the flushed cache reads back the same cache. -/
theorem claim_C10 (oracle : Nat → Option Str) (inner : Str) (st : FragState)
    (hall : ∀ i, oracle i = none)
    (hni : inner.all pyIsSpace = false)
    (hmiss : dlookup st.cache inner = none)
    (hnd : (st.cache.map Prod.fst).Nodup) :
    (replOne (fun t => (translate_text_frag oracle t).result) inner st).1 = inner ∧
    (replOne (fun t => (translate_text_frag oracle t).result) inner st).2.cache =
      st.cache ++ [(inner, inner)] ∧
    dlookup (replOne (fun t => (translate_text_frag oracle t).result) inner st).2.cache
      inner = some inner ∧
    (∀ (svc2 : Str → Str) (st2 : FragState), dlookup st2.cache inner = some inner →
      (replOne svc2 inner st2).2.calls = st2.calls ∧ (replOne svc2 inner st2).1 = inner) ∧
    (∀ (svc2 : Str → Str) (ps : List (Str × Str)) (st2 : FragState),
      dlookup st2.cache inner = some inner →
      dlookup (mapFrags svc2 ps st2).2.cache inner = some inner) ∧
    jToDict (load_cache (FileContent.stored (save_cache
      ((replOne (fun t => (translate_text_frag oracle t).result) inner st).2.cache)))) =
      some ((replOne (fun t => (translate_text_frag oracle t).result) inner st).2.cache) := by
  have hres : (translate_text_frag oracle inner).result = inner := by
    have := fragLoop_exhaust oracle inner RETRY_LIMIT 0 (fun i _ => hall (0 + i))
    simp [translate_text_frag, this]
  have hcache : (replOne (fun t => (translate_text_frag oracle t).result) inner st).2.cache =
      st.cache ++ [(inner, inner)] := by
    simp [replOne, hni, hmiss, hres]
  have hnd2 : ((st.cache ++ [(inner, inner)]).map Prod.fst).Nodup := by
    rw [List.map_append]
    rw [List.nodup_append]
    refine ⟨hnd, by simp, ?_⟩
    intro a ha hb
    have : a = inner := by simpa using hb
    exact dlookup_none_notMem st.cache inner hmiss (this ▸ ha)
  refine ⟨?_, hcache, ?_, ?_, ?_, ?_⟩
  · simp [replOne, hni, hmiss, hres]
  · rw [hcache]
    exact dlookup_append_self st.cache inner inner hmiss
  · intro svc2 st2 h2
    simp [replOne, hni, h2]
  · intro svc2 ps st2 h2
    exact mapFrags_cache_mono svc2 ps st2 inner inner h2
  · rw [hcache]
    have hl := load_save (st.cache ++ [(inner, inner)]) hnd2
    rw [hl]
    simp only [jToDict]
    exact jMembersToDict_jsMap _

/-- C10 (witness): an always-failing oracle on the fragment `hi` with a
one-entry cache stores the fallback and makes it a later hit. -/
theorem claim_C10_witness :
    (replOne (fun t => (translate_text_frag (fun _ => none) t).result) ['h', 'i']
      ⟨[(['a'], ['b'])], false, 0⟩).1 = ['h', 'i'] ∧
    (replOne (fun t => (translate_text_frag (fun _ => none) t).result) ['h', 'i']
      ⟨[(['a'], ['b'])], false, 0⟩).2.cache =
      [(['a'], ['b'])] ++ [(['h', 'i'], ['h', 'i'])] ∧
    dlookup (replOne (fun t => (translate_text_frag (fun _ => none) t).result) ['h', 'i']
      ⟨[(['a'], ['b'])], false, 0⟩).2.cache ['h', 'i'] = some ['h', 'i'] := by
  have h := claim_C10 (fun _ => none) ['h', 'i'] ⟨[(['a'], ['b'])], false, 0⟩
    (fun i => rfl) (by decide) (by decide) (by decide)
  exact ⟨h.1, h.2.1, h.2.2.1⟩

end A2L
